import Mathlib

set_option maxRecDepth 100000

/-!
Verification of the SHA-512/256 engine of `src/microhttpd/sha512_256.c`
(GNU libmicrohttpd).

The C code is shallowly embedded: 64-bit machine words become `Nat` with
explicit reduction `% 2 ^ 64` wherever C arithmetic can wrap, byte buffers
become `List Nat`, and the mutable `struct Sha512_256Ctx` becomes a record
that every operation consumes and returns.  The helper macros of
`mhd_bithelpers.h` (`_MHD_ROTR64`, `_MHD_GET_64BIT_BE`, `_MHD_PUT_64BIT_BE`)
and the constants of `sha512_256.h` are not part of the provided sources, so
they are modelled from the specification text (big-endian 64-bit load/store,
right rotation); each such definition is marked `Modelled from the spec`.
-/

/-- Modelled from the spec: `_MHD_ROTR64` of `mhd_bithelpers.h` (header not in
the sources) — right rotation of a 64-bit value, `(x >> n) | (x << (64 - n))`
with the left shift truncated to 64 bits. -/
def MHD_ROTR64 (x n : Nat) : Nat :=
  (x >>> n) ||| ((x <<< (64 - n)) % 2 ^ 64)

/-- Modelled from the spec: `_MHD_GET_64BIT_BE` applied at 64-bit word index
`t` of a byte buffer (macro `GET_W_FROM_DATA` of the source): the eight bytes
`8t .. 8t+7` assembled as a big-endian 64-bit value. -/
def MHD_GET_64BIT_BE (data : List Nat) (t : Nat) : Nat :=
  data.getD (8 * t) 0 * 2 ^ 56 + data.getD (8 * t + 1) 0 * 2 ^ 48 +
  data.getD (8 * t + 2) 0 * 2 ^ 40 + data.getD (8 * t + 3) 0 * 2 ^ 32 +
  data.getD (8 * t + 4) 0 * 2 ^ 24 + data.getD (8 * t + 5) 0 * 2 ^ 16 +
  data.getD (8 * t + 6) 0 * 2 ^ 8 + data.getD (8 * t + 7) 0

/-- Modelled from the spec: `_MHD_PUT_64BIT_BE` of `mhd_bithelpers.h` — the
eight bytes of a 64-bit value in big-endian order. -/
def MHD_PUT_64BIT_BE (x : Nat) : List Nat :=
  [x / 2 ^ 56 % 2 ^ 8, x / 2 ^ 48 % 2 ^ 8, x / 2 ^ 40 % 2 ^ 8,
   x / 2 ^ 32 % 2 ^ 8, x / 2 ^ 24 % 2 ^ 8, x / 2 ^ 16 % 2 ^ 8,
   x / 2 ^ 8 % 2 ^ 8, x % 2 ^ 8]

/-- `Ch(x,y,z) = (z) ^ ((x) & ((y) ^ (z)))` — source line 103. -/
def Ch (x y z : Nat) : Nat := z ^^^ (x &&& (y ^^^ z))

/-- `Maj(x,y,z) = ((x) & (y)) ^ ((z) & ((x) ^ (y)))` — source line 104. -/
def Maj (x y z : Nat) : Nat := (x &&& y) ^^^ (z &&& (x ^^^ y))

/-- `SIG0` — source lines 111-112. -/
def SIG0 (x : Nat) : Nat := MHD_ROTR64 x 28 ^^^ MHD_ROTR64 x 34 ^^^ MHD_ROTR64 x 39

/-- `SIG1` — source lines 113-114. -/
def SIG1 (x : Nat) : Nat := MHD_ROTR64 x 14 ^^^ MHD_ROTR64 x 18 ^^^ MHD_ROTR64 x 41

/-- `sig0` — source lines 115-116. -/
def sig0 (x : Nat) : Nat := MHD_ROTR64 x 1 ^^^ MHD_ROTR64 x 8 ^^^ (x >>> 7)

/-- `sig1` — source lines 117-118. -/
def sig1 (x : Nat) : Nat := MHD_ROTR64 x 19 ^^^ MHD_ROTR64 x 61 ^^^ (x >>> 6)

/-- The eight working variables `a..h` of the compression function. -/
structure SHAws where
  a : Nat
  b : Nat
  c : Nat
  d : Nat
  e : Nat
  f : Nat
  g : Nat
  h : Nat
  deriving Repr, DecidableEq

/-- One round, macro `SHA2STEP64` (source lines 129-131):
`vD += (vH += SIG1(vE) + Ch(vE,vF,vG) + kt + wt); vH += SIG0(vA) + Maj(vA,vB,vC)`,
followed by the role rotation of the working variables (`SHA2STEP64RV`). -/
def SHA2STEP64 (kt wt : Nat) (s : SHAws) : SHAws :=
  let t1 := (s.h + SIG1 s.e + Ch s.e s.f s.g + kt + wt) % 2 ^ 64
  { a := (t1 + SIG0 s.a + Maj s.a s.b s.c) % 2 ^ 64
    b := s.a
    c := s.b
    d := s.c
    e := (s.d + t1) % 2 ^ 64
    f := s.e
    g := s.f
    h := s.g }

/-- The 80 round constants `K` of FIPS PUB 180-4 clause 4.2.3
(source lines 362-402). -/
def sha512_K : List Nat :=
  [0x428A2F98D728AE22, 0x7137449123EF65CD, 0xB5C0FBCFEC4D3B2F, 0xE9B5DBA58189DBBC,
   0x3956C25BF348B538, 0x59F111F1B605D019, 0x923F82A4AF194F9B, 0xAB1C5ED5DA6D8118,
   0xD807AA98A3030242, 0x12835B0145706FBE, 0x243185BE4EE4B28C, 0x550C7DC3D5FFB4E2,
   0x72BE5D74F27B896F, 0x80DEB1FE3B1696B1, 0x9BDC06A725C71235, 0xC19BF174CF692694,
   0xE49B69C19EF14AD2, 0xEFBE4786384F25E3, 0x0FC19DC68B8CD5B5, 0x240CA1CC77AC9C65,
   0x2DE92C6F592B0275, 0x4A7484AA6EA6E483, 0x5CB0A9DCBD41FBD4, 0x76F988DA831153B5,
   0x983E5152EE66DFAB, 0xA831C66D2DB43210, 0xB00327C898FB213F, 0xBF597FC7BEEF0EE4,
   0xC6E00BF33DA88FC2, 0xD5A79147930AA725, 0x06CA6351E003826F, 0x142929670A0E6E70,
   0x27B70A8546D22FFC, 0x2E1B21385C26C926, 0x4D2C6DFC5AC42AED, 0x53380D139D95B3DF,
   0x650A73548BAF63DE, 0x766A0ABB3C77B2A8, 0x81C2C92E47EDAEE6, 0x92722C851482353B,
   0xA2BFE8A14CF10364, 0xA81A664BBC423001, 0xC24B8B70D0F89791, 0xC76C51A30654BE30,
   0xD192E819D6EF5218, 0xD69906245565A910, 0xF40E35855771202A, 0x106AA07032BBD1B8,
   0x19A4C116B8D2D0C8, 0x1E376C085141AB53, 0x2748774CDF8EEB99, 0x34B0BCB5E19B48A8,
   0x391C0CB3C5C95A63, 0x4ED8AA4AE3418ACB, 0x5B9CCA4F7763E373, 0x682E6FF3D6B2B8A3,
   0x748F82EE5DEFB2FC, 0x78A5636F43172F60, 0x84C87814A1F0AB72, 0x8CC702081A6439EC,
   0x90BEFFFA23631E28, 0xA4506CEBDE82BDE9, 0xBEF9A3F7B2C67915, 0xC67178F2E372532B,
   0xCA273ECEEA26619C, 0xD186B8C721C0C207, 0xEADA7DD6CDE0EB1E, 0xF57D4F7FEE6ED178,
   0x06F067AA72176FBA, 0x0A637DC5A2C898A6, 0x113F9804BEF90DAE, 0x1B710B35131C471B,
   0x28DB77F523047D84, 0x32CAAB7B40C72493, 0x3C9EBE0A15C9BEBC, 0x431D67C49C100D4C,
   0x4CC5D4BECB3E42B6, 0x597F299CFC657E2A, 0x5FCB6FAB3AD6FAEC, 0x6C44198C4A475817]

/-- Macro `Wgen` (source lines 145-146): next schedule word from the 16-slot
cyclic buffer, `w[(t-16)&15] + sig1(w[(t-2)&15]) + w[(t-7)&15] + sig0(w[(t-15)&15])`
reduced mod 2⁶⁴ by the 64-bit addition. -/
def Wgen (w : Nat → Nat) (t : Nat) : Nat :=
  (w ((t - 16) % 16) + sig1 (w ((t - 2) % 16)) + w ((t - 7) % 16)
    + sig0 (w ((t - 15) % 16))) % 2 ^ 64

/-- `n` rounds starting at round index `t`, drawing schedule word `wf t` for
round `t` (used for rounds 0-15, where `W[t]` is read straight from the data,
and as the specification-side round loop). -/
def sha512_256_rounds (wf : Nat → Nat) (t n : Nat) (s : SHAws) : SHAws :=
  match n with
  | 0 => s
  | n + 1 => sha512_256_rounds wf (t + 1) n (SHA2STEP64 (sha512_K.getD t 0) (wf t) s)

/-- Rounds 16-79 of the source: each round generates the schedule word with
`Wgen` from the 16-slot cyclic buffer `w` and stores it back at slot `t & 15`
before stepping (source lines 228-355 / 431-435). -/
def sha512_256_extRounds (t n : Nat) (w : Nat → Nat) (s : SHAws) : SHAws :=
  match n with
  | 0 => s
  | n + 1 =>
    let x := Wgen w t
    sha512_256_extRounds (t + 1) n (fun i => if i = t % 16 then x else w i)
      (SHA2STEP64 (sha512_K.getD t 0) x s)

/-- Working variables loaded from the 8-word state (source lines 75-82). -/
def sha512_256_loadWs (H : List Nat) : SHAws :=
  ⟨H.getD 0 0, H.getD 1 0, H.getD 2 0, H.getD 3 0,
   H.getD 4 0, H.getD 5 0, H.getD 6 0, H.getD 7 0⟩

/-- The feed-forward `H[i] += v` of source lines 441-448. -/
def sha512_256_feedForward (H : List Nat) (s : SHAws) : List Nat :=
  [(H.getD 0 0 + s.a) % 2 ^ 64, (H.getD 1 0 + s.b) % 2 ^ 64,
   (H.getD 2 0 + s.c) % 2 ^ 64, (H.getD 3 0 + s.d) % 2 ^ 64,
   (H.getD 4 0 + s.e) % 2 ^ 64, (H.getD 5 0 + s.f) % 2 ^ 64,
   (H.getD 6 0 + s.g) % 2 ^ 64, (H.getD 7 0 + s.h) % 2 ^ 64]

/-- `sha512_256_transform` (source lines 69-449): 16 rounds reading the block
as big-endian words, 64 rounds driven by the `Wgen` cyclic buffer (whose
content after round 15 is exactly the 16 decoded words), then feed-forward. -/
def sha512_256_transform (H data : List Nat) : List Nat :=
  let w0 : Nat → Nat := fun t => MHD_GET_64BIT_BE data t
  let s16 := sha512_256_rounds w0 0 16 (sha512_256_loadWs H)
  let s80 := sha512_256_extRounds 16 64 w0 s16
  sha512_256_feedForward H s80

/-- The direct 80-word message schedule of FIPS PUB 180-4 clause 6.4.2:
`W[t]` is the decoded word for `t < 16` and
`W[t-16] + σ1(W[t-2]) + W[t-7] + σ0(W[t-15]) mod 2⁶⁴` for `16 ≤ t ≤ 79`.
This is the specification-side definition, written from the spec's words for
comparison with the cyclic-buffer implementation. -/
def Wdirect (d : Nat → Nat) (t : Nat) : Nat :=
  if h : t < 16 then d t
  else (Wdirect d (t - 16) + sig1 (Wdirect d (t - 2)) + Wdirect d (t - 7)
        + sig0 (Wdirect d (t - 15))) % 2 ^ 64
termination_by t
decreasing_by all_goals omega

/-- Specification-side compression function: decode the block big-endian, run
80 rounds with the direct schedule `Wdirect`, feed-forward. -/
def sha512_256_transform_direct (H data : List Nat) : List Nat :=
  let s80 := sha512_256_rounds (Wdirect (fun t => MHD_GET_64BIT_BE data t)) 0 80
    (sha512_256_loadWs H)
  sha512_256_feedForward H s80

/-- `struct Sha512_256Ctx` (declared in the header `sha512_256.h`, shaped by
its use in the source): 8-word state `H`, 128-byte block buffer, 64-bit byte
counter `count` and 64-bit high bit-counter `count_bits_hi`.  The buffer is a
byte list; the C structure leaves it uninitialised after `init`, but no byte
of it is ever read before being written, so the model starts it at zero. -/
structure Sha512_256Ctx where
  H : List Nat
  buffer : List Nat
  count : Nat
  count_bits_hi : Nat
  deriving Repr, DecidableEq

/-- `MHD_SHA512_256_init` (source lines 41-58): the eight SHA-512/256 initial
hash values of FIPS PUB 180-4 clause 5.3.6.2, zero counters. -/
def MHD_SHA512_256_init : Sha512_256Ctx :=
  { H := [0x22312194FC2BF72C, 0x9F555FA3C84C64C2, 0x2393B86B6F53B151,
          0x963877195940EABD, 0x96283EE2A88EFFE3, 0xBE5E1E2553863992,
          0x2B0199FC2C85B8AA, 0x0EB72DDC81C52CA2]
    buffer := List.replicate 128 0
    count := 0
    count_bits_hi := 0 }

/-- `memcpy` into a byte buffer at offset `off`. -/
def writeBytes (buf : List Nat) (off : Nat) (xs : List Nat) : List Nat :=
  buf.take off ++ xs ++ buf.drop (off + xs.length)

/-- The `while (SHA512_256_BLOCK_SIZE <= length)` loop of
`MHD_SHA512_256_update` (source lines 501-507): transform each full 128-byte
block of `data` in turn; returns the final state and the leftover tail. -/
def sha512_256_processBlocks (H data : List Nat) : List Nat × List Nat :=
  if 128 ≤ data.length then
    sha512_256_processBlocks (sha512_256_transform H (data.take 128)) (data.drop 128)
  else (H, data)
termination_by data.length
decreasing_by simp; omega

/-- Body of `MHD_SHA512_256_update` (source lines 474-513), shared by the
default and the `MHD_FAVOR_SMALL_CODE` builds: update the split byte counter,
complete a buffered partial block if possible, transform the full blocks of
the remaining data, buffer the tail. -/
def sha512_256_updateBody (ctx : Sha512_256Ctx) (data : List Nat) : Sha512_256Ctx :=
  let length := data.length
  let bytes_have := ctx.count % 128
  let count1 := (ctx.count + length) % 2 ^ 64
  let count_hi := count1 / 2 ^ 61
  let count2 := if count_hi = 0 then count1 else count1 % 2 ^ 61
  let cbh2 := if count_hi = 0 then ctx.count_bits_hi
              else (ctx.count_bits_hi + count_hi) % 2 ^ 64
  let topup := bytes_have ≠ 0 ∧ 128 - bytes_have ≤ length
  let buffer1 := if topup then writeBytes ctx.buffer bytes_have (data.take (128 - bytes_have))
                 else ctx.buffer
  let H1 := if topup then sha512_256_transform ctx.H buffer1 else ctx.H
  let data1 := if topup then data.drop (128 - bytes_have) else data
  let bh1 := if topup then 0 else bytes_have
  let Hrest := sha512_256_processBlocks H1 data1
  let buffer2 := if Hrest.2.length = 0 then buffer1 else writeBytes buffer1 bh1 Hrest.2
  { H := Hrest.1, buffer := buffer2, count := count2, count_bits_hi := cbh2 }

/-- `MHD_SHA512_256_update`, default build: the `if (0 == length) return;`
shortcut (source lines 470-471) followed by the shared body. -/
def MHD_SHA512_256_update (ctx : Sha512_256Ctx) (data : List Nat) : Sha512_256Ctx :=
  if data.length = 0 then ctx else sha512_256_updateBody ctx data

/-- `MHD_SHA512_256_update` under `MHD_FAVOR_SMALL_CODE`: the shortcut is
compiled out and the body always runs. -/
def MHD_SHA512_256_update_sc (ctx : Sha512_256Ctx) (data : List Nat) : Sha512_256Ctx :=
  sha512_256_updateBody ctx data

/-- Digest extraction (source lines 613-627): big-endian bytes of the first
four state words only. -/
def sha512_256_digestOf (H : List Nat) : List Nat :=
  MHD_PUT_64BIT_BE (H.getD 0 0) ++ MHD_PUT_64BIT_BE (H.getD 1 0) ++
  MHD_PUT_64BIT_BE (H.getD 2 0) ++ MHD_PUT_64BIT_BE (H.getD 3 0)

/-- The state reached by the padding/length postprocessing of
`MHD_SHA512_256_finish` (source lines 538-586): append `0x80`, possibly close
out the current block, zero-fill, store the 128-bit big-endian bit length in
the last 16 bytes, transform the final block. -/
def sha512_256_finalH (ctx : Sha512_256Ctx) : List Nat :=
  let num_bits := (ctx.count * 8) % 2 ^ 64
  let bytes_have := ctx.count % 128
  let buf1 := writeBytes ctx.buffer bytes_have [0x80]
  let bh1 := bytes_have + 1
  let needExtra := 128 - bh1 < 16
  let buf2 := if needExtra then
                (if bh1 < 128 then writeBytes buf1 bh1 (List.replicate (128 - bh1) 0) else buf1)
              else buf1
  let H1 := if needExtra then sha512_256_transform ctx.H buf2 else ctx.H
  let bh2 := if needExtra then 0 else bh1
  let buf3 := writeBytes buf2 bh2 (List.replicate (128 - 16 - bh2) 0)
  let buf4 := writeBytes buf3 112 (MHD_PUT_64BIT_BE ctx.count_bits_hi)
  let buf5 := writeBytes buf4 120 (MHD_PUT_64BIT_BE num_bits)
  sha512_256_transform H1 buf5

/-- `MHD_SHA512_256_finish` (source lines 535-631): run the padding
postprocessing, emit the 32-byte digest, erase the context (`memset` to zero,
source line 630).  Returns the digest together with the consumed context. -/
def MHD_SHA512_256_finish (ctx : Sha512_256Ctx) : List Nat × Sha512_256Ctx :=
  let H2 := sha512_256_finalH ctx
  (sha512_256_digestOf H2,
   { H := List.replicate 8 0, buffer := List.replicate 128 0,
     count := 0, count_bits_hi := 0 })

/-- Lower-case hexadecimal digit. -/
def hexDigit (n : Nat) : Char :=
  Char.ofNat (if n < 10 then 48 + n else 87 + n)

/-- Lower-case hexadecimal encoding of a byte list. -/
def hexOfBytes (bs : List Nat) : String :=
  String.mk (bs.foldr (fun b acc => hexDigit (b / 16) :: hexDigit (b % 16) :: acc) [])

/-- Modelled from the spec: the initial hash values of plain SHA-512
(FIPS PUB 180-4 clause 5.3.5), which the spec says the SHA-512/256 constants
must be distinct from. -/
def sha512_IV : List Nat :=
  [0x6A09E667F3BCC908, 0xBB67AE8584CAA73B, 0x3C6EF372FE94F82B, 0xA54FF53A5F1D36F1,
   0x510E527FADE682D1, 0x9B05688C2B3E6C1F, 0x1F83D9ABFB41BD6B, 0x5BE0CD19137E2179]

/-- Claim C8: `init` sets the eight state words to the fixed SHA-512/256
initial values (distinct from plain SHA-512's), zeroes both counters, and
leaves the buffer empty (no buffered byte: the live region `count % 128` is
empty).  Being a total function of no input, it validates nothing and cannot
fail. -/
theorem MHD_SHA512_256_init_spec :
    MHD_SHA512_256_init.H =
      [0x22312194FC2BF72C, 0x9F555FA3C84C64C2, 0x2393B86B6F53B151,
       0x963877195940EABD, 0x96283EE2A88EFFE3, 0xBE5E1E2553863992,
       0x2B0199FC2C85B8AA, 0x0EB72DDC81C52CA2] ∧
    MHD_SHA512_256_init.count = 0 ∧
    MHD_SHA512_256_init.count_bits_hi = 0 ∧
    MHD_SHA512_256_init.buffer.take (MHD_SHA512_256_init.count % 128) = [] ∧
    MHD_SHA512_256_init.H ≠ sha512_IV :=
  ⟨rfl, rfl, rfl, rfl, by decide⟩

/-- Claim C9: after `finish` returns, every component of the context is zero:
all eight state words, all 128 buffer bytes, and both counters. -/
theorem sha512_256_finish_zeroizes (ctx : Sha512_256Ctx) :
    (MHD_SHA512_256_finish ctx).2.H = List.replicate 8 0 ∧
    (MHD_SHA512_256_finish ctx).2.buffer = List.replicate 128 0 ∧
    (MHD_SHA512_256_finish ctx).2.count = 0 ∧
    (MHD_SHA512_256_finish ctx).2.count_bits_hi = 0 ∧
    (∀ w ∈ (MHD_SHA512_256_finish ctx).2.H, w = 0) ∧
    (∀ b ∈ (MHD_SHA512_256_finish ctx).2.buffer, b = 0) :=
  ⟨rfl, rfl, rfl, rfl,
   fun _ hw => List.eq_of_mem_replicate hw,
   fun _ hb => List.eq_of_mem_replicate hb⟩

/-- Claim C4: the digest written by `finish` is exactly 32 bytes — the
big-endian encodings, in order, of only the first four words of the final
8-word state, the remaining four words being discarded. -/
theorem sha512_256_digest_32bytes (ctx : Sha512_256Ctx) :
    (MHD_SHA512_256_finish ctx).1.length = 32 ∧
    (MHD_SHA512_256_finish ctx).1 =
      MHD_PUT_64BIT_BE ((sha512_256_finalH ctx).getD 0 0) ++
      MHD_PUT_64BIT_BE ((sha512_256_finalH ctx).getD 1 0) ++
      MHD_PUT_64BIT_BE ((sha512_256_finalH ctx).getD 2 0) ++
      MHD_PUT_64BIT_BE ((sha512_256_finalH ctx).getD 3 0) ∧
    (sha512_256_finalH ctx).length = 8 := by
  refine ⟨?_, rfl, ?_⟩
  · simp [MHD_SHA512_256_finish, sha512_256_digestOf, MHD_PUT_64BIT_BE]
  · simp [sha512_256_finalH, sha512_256_transform, sha512_256_feedForward]

/-- Claim C1, counterexample: the spec's quoted hex string for the
empty-message digest (63 characters, so not even a whole number of bytes) is
not the hex encoding of the digest the code computes. -/
theorem sha512_256_c1_counterexample :
    hexOfBytes (MHD_SHA512_256_finish MHD_SHA512_256_init).1 ≠
      "c672b8d1ef56ed28ab87c3622c5114069bdd3ad7b8f9737498d0c01ecef0967" := by
  decide

/-- Claim C1, amended: with zero `update` calls, or one `update` call with
empty input, `finish` yields the FIPS 180-4 SHA-512/256 digest of the empty
string, whose 64-character hex encoding is
`c672b8d1ef56ed28ab87c3622c5114069bdd3ad7b8f9737498d0c01ecef0967a`
(the spec's quoted string lacks the final `a`). -/
theorem sha512_256_empty_digest :
    (MHD_SHA512_256_finish MHD_SHA512_256_init).1 =
      [0xc6, 0x72, 0xb8, 0xd1, 0xef, 0x56, 0xed, 0x28,
       0xab, 0x87, 0xc3, 0x62, 0x2c, 0x51, 0x14, 0x06,
       0x9b, 0xdd, 0x3a, 0xd7, 0xb8, 0xf9, 0x73, 0x74,
       0x98, 0xd0, 0xc0, 0x1e, 0xce, 0xf0, 0x96, 0x7a] ∧
    (MHD_SHA512_256_finish (MHD_SHA512_256_update MHD_SHA512_256_init [])).1 =
      (MHD_SHA512_256_finish MHD_SHA512_256_init).1 ∧
    hexOfBytes (MHD_SHA512_256_finish MHD_SHA512_256_init).1 =
      "c672b8d1ef56ed28ab87c3622c5114069bdd3ad7b8f9737498d0c01ecef0967a" :=
  ⟨by decide, rfl, by decide⟩

/-- For `t < 16` the direct schedule is the decoded data word. -/
theorem Wdirect_lt (d : Nat → Nat) (t : Nat) (h : t < 16) : Wdirect d t = d t := by
  rw [Wdirect]
  exact dif_pos h

/-- For `16 ≤ t` the direct schedule satisfies the FIPS recurrence. -/
theorem Wdirect_ge (d : Nat → Nat) (t : Nat) (h : 16 ≤ t) :
    Wdirect d t =
      (Wdirect d (t - 16) + sig1 (Wdirect d (t - 2)) + Wdirect d (t - 7)
        + sig0 (Wdirect d (t - 15))) % 2 ^ 64 := by
  conv_lhs => rw [Wdirect]
  exact dif_neg (by omega)

/-- Splitting a round run. -/
theorem sha512_256_rounds_add (wf : Nat → Nat) (m n t : Nat) (s : SHAws) :
    sha512_256_rounds wf t (m + n) s =
      sha512_256_rounds wf (t + m) n (sha512_256_rounds wf t m s) := by
  induction m generalizing t s with
  | zero =>
    rw [Nat.zero_add, Nat.add_zero]
    rfl
  | succ m ih =>
    have h1 : m + 1 + n = (m + n) + 1 := by omega
    have h2 : t + (m + 1) = (t + 1) + m := by omega
    rw [h1, h2]
    simp only [sha512_256_rounds]
    exact ih (t + 1) _

/-- A round run only reads its word function inside the window it executes. -/
theorem sha512_256_rounds_congr (wf wg : Nat → Nat) (n t : Nat) (s : SHAws)
    (h : ∀ j, t ≤ j → j < t + n → wf j = wg j) :
    sha512_256_rounds wf t n s = sha512_256_rounds wg t n s := by
  induction n generalizing t s with
  | zero => rfl
  | succ n ih =>
    simp only [sha512_256_rounds]
    rw [h t le_rfl (by omega)]
    exact ih (t + 1) _ fun j h1 h2 => h j (by omega) (by omega)

/-- The cyclic-buffer rounds agree with the direct-schedule rounds: if the
16-slot buffer currently holds the direct schedule words of the previous 16
indices, `Wgen` regenerates exactly the direct schedule, round after round. -/
theorem sha512_256_extRounds_eq_rounds (d : Nat → Nat) (n t : Nat) (w : Nat → Nat)
    (s : SHAws) (ht : 16 ≤ t)
    (hw : ∀ j, t - 16 ≤ j → j < t → w (j % 16) = Wdirect d j) :
    sha512_256_extRounds t n w s = sha512_256_rounds (Wdirect d) t n s := by
  induction n generalizing t w s with
  | zero => rfl
  | succ n ih =>
    have hx : Wgen w t = Wdirect d t := by
      rw [Wgen, hw (t - 16) (by omega) (by omega), hw (t - 2) (by omega) (by omega),
        hw (t - 7) (by omega) (by omega), hw (t - 15) (by omega) (by omega),
        Wdirect_ge d t ht]
    simp only [sha512_256_extRounds, sha512_256_rounds]
    rw [hx]
    apply ih (t + 1) _ _ (by omega)
    intro j h1 h2
    by_cases hjt : j = t
    · subst hjt
      simp [hx]
    · have hne : j % 16 ≠ t % 16 := by omega
      simp only [if_neg hne]
      exact hw j (by omega) (by omega)

/-- Claim C2: for every 8-word state and every block, `sha512_256_transform`
computes the FIPS 180-4 SHA-512 compression function — the block is decoded
as 16 big-endian 64-bit words, the schedule is extended by the
`W[t] = W[t-16] + σ1(W[t-2]) + W[t-7] + σ0(W[t-15]) mod 2⁶⁴` recurrence with
the 16-slot cyclic buffer producing the same values as the direct 80-word
schedule, 80 rounds update the working variables, and the result is added
back into the state mod 2⁶⁴ (`sha512_256_transform_direct` is exactly that
direct description). -/
theorem sha512_256_transform_eq_direct (H data : List Nat) :
    sha512_256_transform H data = sha512_256_transform_direct H data := by
  have key : sha512_256_extRounds 16 64 (fun t => MHD_GET_64BIT_BE data t)
      (sha512_256_rounds (fun t => MHD_GET_64BIT_BE data t) 0 16
        (sha512_256_loadWs H)) =
      sha512_256_rounds (Wdirect fun t => MHD_GET_64BIT_BE data t) 0 80
        (sha512_256_loadWs H) := by
    have hsplit := sha512_256_rounds_add (Wdirect fun t => MHD_GET_64BIT_BE data t)
      16 64 0 (sha512_256_loadWs H)
    rw [Nat.zero_add] at hsplit
    rw [show (80 : Nat) = 16 + 64 from rfl, hsplit]
    have h16 : sha512_256_rounds (fun t => MHD_GET_64BIT_BE data t) 0 16
          (sha512_256_loadWs H) =
        sha512_256_rounds (Wdirect fun t => MHD_GET_64BIT_BE data t) 0 16
          (sha512_256_loadWs H) := by
      apply sha512_256_rounds_congr
      intro j _ h2
      exact (Wdirect_lt _ j (by omega)).symm
    rw [← h16]
    apply sha512_256_extRounds_eq_rounds _ 64 16 _ _ (by omega)
    intro j _ h2
    rw [Nat.mod_eq_of_lt (by omega), Wdirect_lt _ j (by omega)]
  simp only [sha512_256_transform, sha512_256_transform_direct]
  rw [key]

/-- `MHD_PUT_64BIT_BE` always produces 8 bytes. -/
theorem length_MHD_PUT_64BIT_BE (x : Nat) : (MHD_PUT_64BIT_BE x).length = 8 := rfl

/-- Writing `xs` right after an exact prefix `p` overwrites the first
`xs.length` bytes of the remainder. -/
theorem writeBytes_exact (p rest xs : List Nat) (off : Nat) (hp : p.length = off) :
    writeBytes (p ++ rest) off xs = p ++ xs ++ rest.drop xs.length := by
  simp only [writeBytes]
  rw [List.take_left' hp, List.drop_append_eq_append_drop,
    List.drop_eq_nil_of_le (by omega), hp, Nat.add_sub_cancel_left]
  simp only [List.nil_append]

/-- The single-byte store `buffer[bytes_have] = 0x80` of `finish`. -/
theorem writeBytes_pad80 (B : List Nat) (bh : Nat) (hbh : bh ≤ B.length) :
    writeBytes B bh [0x80] = B.take bh ++ [0x80] ++ B.drop (bh + 1) := by
  conv_lhs => rw [← List.take_append_drop bh B]
  rw [writeBytes_exact _ _ _ _ (by rw [List.length_take]; omega)]
  simp only [List.length_singleton, List.drop_drop]

/-- The zero-fill / length-store tail of `finish`: starting from a 128-byte
block `C` with `k ≤ 112` bytes already in place, the three writes produce
`C.take k ++ zeros ++ u ++ v`. -/
theorem sha512_256_lenBlock (C : List Nat) (k : Nat) (u v : List Nat)
    (hC : C.length = 128) (hk : k ≤ 112) (hu : u.length = 8) (hv : v.length = 8) :
    writeBytes (writeBytes (writeBytes C k (List.replicate (112 - k) 0)) 112 u) 120 v
      = C.take k ++ List.replicate (112 - k) 0 ++ u ++ v := by
  have htk : (C.take k).length = k := by rw [List.length_take]; omega
  have h1 : writeBytes C k (List.replicate (112 - k) 0)
      = (C.take k ++ List.replicate (112 - k) 0) ++ C.drop 112 := by
    conv_lhs => rw [← List.take_append_drop k C]
    rw [writeBytes_exact _ _ _ _ htk]
    rw [List.length_replicate, List.drop_drop, show k + (112 - k) = 112 by omega,
      List.append_assoc]
  have h2 : writeBytes ((C.take k ++ List.replicate (112 - k) 0) ++ C.drop 112) 112 u
      = ((C.take k ++ List.replicate (112 - k) 0) ++ u) ++ C.drop 120 := by
    rw [writeBytes_exact _ _ _ _
      (by rw [List.length_append, htk, List.length_replicate]; omega)]
    rw [hu, List.drop_drop, List.append_assoc]
  have h3 : writeBytes (((C.take k ++ List.replicate (112 - k) 0) ++ u) ++ C.drop 120)
        120 v
      = ((C.take k ++ List.replicate (112 - k) 0) ++ u) ++ v ++ C.drop 128 := by
    rw [writeBytes_exact _ _ _ _
      (by rw [List.length_append, List.length_append, htk, List.length_replicate, hu]
          omega)]
    rw [hv, List.drop_drop]
  rw [h1, h2, h3, List.drop_eq_nil_of_le (by omega)]
  simp [List.append_assoc]

/-- The `0x80` append plus the conditional zero-fill that closes out the
current block in the `needExtra` case of `finish`. -/
theorem sha512_256_closePad (B : List Nat) (bh : Nat) (hB : B.length = 128)
    (hbh : bh < 128) :
    (if bh + 1 < 128 then
       writeBytes (writeBytes B bh [0x80]) (bh + 1) (List.replicate (128 - (bh + 1)) 0)
     else writeBytes B bh [0x80])
      = (B.take bh ++ [0x80]) ++ List.replicate (128 - (bh + 1)) 0 := by
  have hp1 : (B.take bh ++ [0x80]).length = bh + 1 := by
    rw [List.length_append, List.length_take, List.length_singleton]; omega
  by_cases h127 : bh + 1 < 128
  · rw [if_pos h127, writeBytes_pad80 B bh (by omega), writeBytes_exact _ _ _ _ hp1,
      List.length_replicate, List.drop_drop,
      show bh + 1 + (128 - (bh + 1)) = 128 by omega,
      List.drop_eq_nil_of_le (by omega), List.append_nil]
  · rw [if_neg h127, writeBytes_pad80 B bh (by omega)]
    have hb : bh = 127 := by omega
    subst hb
    rw [List.drop_eq_nil_of_le (by omega), List.append_nil,
      show (128 : Nat) - (127 + 1) = 0 from by norm_num, List.replicate_zero,
      List.append_nil]

/-- Normal form of the digest computed by `finish`: the padding and
length-field writes reduce to one or two explicitly-described final blocks.
In particular the digest depends only on the state, the two counters and the
live (buffered) prefix of the buffer. -/
theorem sha512_256_finish_digest_eq (ctx : Sha512_256Ctx)
    (hbuf : ctx.buffer.length = 128) :
    (MHD_SHA512_256_finish ctx).1 =
      (if 128 - (ctx.count % 128 + 1) < 16 then
        sha512_256_digestOf (sha512_256_transform
          (sha512_256_transform ctx.H
            (ctx.buffer.take (ctx.count % 128) ++ [0x80] ++
             List.replicate (128 - (ctx.count % 128 + 1)) 0))
          (List.replicate 112 0 ++ MHD_PUT_64BIT_BE ctx.count_bits_hi ++
           MHD_PUT_64BIT_BE ((ctx.count * 8) % 2 ^ 64)))
      else
        sha512_256_digestOf (sha512_256_transform ctx.H
          (ctx.buffer.take (ctx.count % 128) ++ [0x80] ++
           List.replicate (112 - (ctx.count % 128 + 1)) 0 ++
           MHD_PUT_64BIT_BE ctx.count_bits_hi ++
           MHD_PUT_64BIT_BE ((ctx.count * 8) % 2 ^ 64)))) := by
  obtain ⟨H, B, cnt, cbh⟩ := ctx
  dsimp only at hbuf ⊢
  have hbh : cnt % 128 < 128 := Nat.mod_lt _ (by norm_num)
  have hlive : (B.take (cnt % 128)).length = cnt % 128 := by
    rw [List.length_take]; omega
  have hp1 : (B.take (cnt % 128) ++ [0x80]).length = cnt % 128 + 1 := by
    rw [List.length_append, hlive, List.length_singleton]
  simp only [MHD_SHA512_256_finish, sha512_256_finalH]
  by_cases hne : 128 - (cnt % 128 + 1) < 16
  · simp only [if_pos hne]
    rw [sha512_256_closePad B (cnt % 128) hbuf hbh]
    have hC : ((B.take (cnt % 128) ++ [0x80]) ++
        List.replicate (128 - (cnt % 128 + 1)) 0).length = 128 := by
      rw [List.length_append, hp1, List.length_replicate]; omega
    rw [show (128 : Nat) - 16 - 0 = 112 - 0 from by norm_num,
      sha512_256_lenBlock _ 0 _ _ hC (by omega)
        (length_MHD_PUT_64BIT_BE _) (length_MHD_PUT_64BIT_BE _)]
    simp only [List.take_zero, List.nil_append,
      show (112 : Nat) - 0 = 112 from rfl]
  · simp only [if_neg hne]
    rw [writeBytes_pad80 B (cnt % 128) (by omega)]
    have hC : ((B.take (cnt % 128) ++ [0x80]) ++ B.drop (cnt % 128 + 1)).length
        = 128 := by
      rw [List.length_append, hp1, List.length_drop]; omega
    rw [show (128 : Nat) - 16 - (cnt % 128 + 1) = 112 - (cnt % 128 + 1) from by omega,
      sha512_256_lenBlock _ (cnt % 128 + 1) _ _ hC (by omega)
        (length_MHD_PUT_64BIT_BE _) (length_MHD_PUT_64BIT_BE _),
      List.take_left' hp1]

/-- `processBlocks` on a short tail is the identity (loop guard fails). -/
theorem sha512_256_processBlocks_lt (H data : List Nat) (h : data.length < 128) :
    sha512_256_processBlocks H data = (H, data) := by
  rw [sha512_256_processBlocks]
  exact if_neg (by omega)

/-- `processBlocks` peels one full block when the loop guard holds. -/
theorem sha512_256_processBlocks_ge (H data : List Nat) (h : 128 ≤ data.length) :
    sha512_256_processBlocks H data =
      sha512_256_processBlocks (sha512_256_transform H (data.take 128))
        (data.drop 128) := by
  conv_lhs => rw [sha512_256_processBlocks]
  exact if_pos h

/-- The leftover of the block loop is the tail after all full blocks. -/
theorem sha512_256_processBlocks_snd (data : List Nat) :
    ∀ H, (sha512_256_processBlocks H data).2 =
      data.drop (128 * (data.length / 128)) := by
  obtain ⟨n, h⟩ : ∃ n, data.length = n := ⟨_, rfl⟩
  induction n using Nat.strongRecOn generalizing data with
  | ind n IH =>
    intro H
    by_cases hge : 128 ≤ data.length
    · rw [sha512_256_processBlocks_ge _ _ hge,
        IH (data.drop 128).length (by rw [List.length_drop]; omega) _ rfl _,
        List.length_drop, List.drop_drop]
      congr 1
      omega
    · rw [sha512_256_processBlocks_lt _ _ (by omega),
        show 128 * (data.length / 128) = 0 by omega]
      rfl

/-- The leftover of the block loop has length `data.length % 128`. -/
theorem sha512_256_processBlocks_snd_length (H data : List Nat) :
    (sha512_256_processBlocks H data).2.length = data.length % 128 := by
  rw [sha512_256_processBlocks_snd data H, List.length_drop]
  omega

/-- Block-loop composition: absorbing `a ++ b` is absorbing `a`, then
absorbing its leftover followed by `b`. -/
theorem sha512_256_processBlocks_append (a b : List Nat) :
    ∀ H, sha512_256_processBlocks H (a ++ b) =
      sha512_256_processBlocks (sha512_256_processBlocks H a).1
        ((sha512_256_processBlocks H a).2 ++ b) := by
  obtain ⟨n, h⟩ : ∃ n, a.length = n := ⟨_, rfl⟩
  induction n using Nat.strongRecOn generalizing a with
  | ind n IH =>
    intro H
    by_cases hge : 128 ≤ a.length
    · have htake : (a ++ b).take 128 = a.take 128 := by
        rw [List.take_append_eq_append_take, show 128 - a.length = 0 by omega]
        simp
      have hdrop : (a ++ b).drop 128 = a.drop 128 ++ b := by
        rw [List.drop_append_eq_append_drop, show 128 - a.length = 0 by omega]
        simp
      rw [sha512_256_processBlocks_ge H (a ++ b)
          (by rw [List.length_append]; omega),
        htake, hdrop, sha512_256_processBlocks_ge H a hge]
      exact IH (a.drop 128).length (by rw [List.length_drop]; omega) _ rfl _
    · rw [sha512_256_processBlocks_lt H a (by omega)]

/-- `memcpy` at offset 0. -/
theorem writeBytes_zero (B xs : List Nat) :
    writeBytes B 0 xs = xs ++ B.drop xs.length := by
  simp [writeBytes]

/-- What one `update` body does to the absorbed stream: if `live` is the
buffered partial block, the new state is the block-loop fold of `live ++ data`
and the new buffered bytes are its leftover.  Holds for every context with a
128-byte buffer, with no restriction on the byte counters. -/
theorem sha512_256_updateBody_absorb (ctx : Sha512_256Ctx) (data : List Nat)
    (hbuf : ctx.buffer.length = 128) :
    (sha512_256_updateBody ctx data).H =
      (sha512_256_processBlocks ctx.H
        (ctx.buffer.take (ctx.count % 128) ++ data)).1 ∧
    (sha512_256_updateBody ctx data).buffer.length = 128 ∧
    (sha512_256_updateBody ctx data).buffer.take
        ((ctx.count % 128 + data.length) % 128) =
      (sha512_256_processBlocks ctx.H
        (ctx.buffer.take (ctx.count % 128) ++ data)).2 := by
  obtain ⟨H, B, cnt, cbh⟩ := ctx
  dsimp only at hbuf ⊢
  have hbh : cnt % 128 < 128 := Nat.mod_lt _ (by norm_num)
  have hlive : (B.take (cnt % 128)).length = cnt % 128 := by
    rw [List.length_take]; omega
  simp only [sha512_256_updateBody]
  by_cases htop : cnt % 128 ≠ 0 ∧ 128 - cnt % 128 ≤ data.length
  · simp only [if_pos htop]
    obtain ⟨hne0, hge⟩ := htop
    have htk : (data.take (128 - cnt % 128)).length = 128 - cnt % 128 := by
      rw [List.length_take]; omega
    have hb1 : writeBytes B (cnt % 128) (data.take (128 - cnt % 128))
        = B.take (cnt % 128) ++ data.take (128 - cnt % 128) := by
      conv_lhs => rw [← List.take_append_drop (cnt % 128) B]
      rw [writeBytes_exact _ _ _ _ hlive, htk, List.drop_drop,
        show cnt % 128 + (128 - cnt % 128) = 128 by omega,
        List.drop_eq_nil_of_le (by omega), List.append_nil]
    have hT : 128 ≤ (B.take (cnt % 128) ++ data).length := by
      rw [List.length_append, hlive]; omega
    have htakeT : (B.take (cnt % 128) ++ data).take 128
        = B.take (cnt % 128) ++ data.take (128 - cnt % 128) := by
      rw [List.take_append_eq_append_take,
        List.take_of_length_le (by rw [hlive]; omega), hlive]
    have hdropT : (B.take (cnt % 128) ++ data).drop 128
        = data.drop (128 - cnt % 128) := by
      rw [List.drop_append_eq_append_drop,
        List.drop_eq_nil_of_le (by rw [hlive]; omega), hlive, List.nil_append]
    rw [hb1, sha512_256_processBlocks_ge _ _ hT, htakeT, hdropT]
    set R := sha512_256_processBlocks
      (sha512_256_transform H (B.take (cnt % 128) ++ data.take (128 - cnt % 128)))
      (data.drop (128 - cnt % 128)) with hR
    have hrlen : R.2.length = (cnt % 128 + data.length) % 128 := by
      rw [hR, sha512_256_processBlocks_snd_length, List.length_drop]
      omega
    refine ⟨rfl, ?_, ?_⟩
    · by_cases hr : R.2.length = 0
      · simp only [if_pos hr]
        rw [List.length_append, hlive, htk]
        omega
      · simp only [if_neg hr]
        rw [writeBytes_zero, List.length_append, List.length_drop,
          List.length_append, hlive, htk]
        omega
    · by_cases hr : R.2.length = 0
      · simp only [if_pos hr]
        rw [show (cnt % 128 + data.length) % 128 = 0 from by rw [← hrlen]; exact hr,
          List.take_zero]
        exact (List.length_eq_zero.mp hr).symm
      · simp only [if_neg hr]
        rw [writeBytes_zero, ← hrlen, List.take_left]
  · simp only [if_neg htop]
    push_neg at htop
    by_cases h0 : cnt % 128 = 0
    · rw [h0]
      simp only [List.take_zero, List.nil_append, Nat.zero_add]
      set R := sha512_256_processBlocks H data with hR
      have hrlen : R.2.length = data.length % 128 := by
        rw [hR]; exact sha512_256_processBlocks_snd_length H data
      refine ⟨by trivial, ?_, ?_⟩
      · by_cases hr : R.2.length = 0
        · simp only [if_pos hr]; exact hbuf
        · simp only [if_neg hr]
          rw [writeBytes_zero, List.length_append, List.length_drop]
          omega
      · by_cases hr : R.2.length = 0
        · simp only [if_pos hr]
          rw [show data.length % 128 = 0 from by rw [← hrlen]; exact hr,
            List.take_zero]
          exact (List.length_eq_zero.mp hr).symm
        · simp only [if_neg hr]
          rw [writeBytes_zero, ← hrlen, List.take_left]
    · have hD : data.length < 128 - cnt % 128 := htop h0
      rw [sha512_256_processBlocks_lt H data (by omega),
        sha512_256_processBlocks_lt H (B.take (cnt % 128) ++ data)
          (by rw [List.length_append, hlive]; omega)]
      refine ⟨rfl, ?_, ?_⟩
      · by_cases hd0 : data.length = 0
        · simp only [if_pos hd0]; exact hbuf
        · simp only [if_neg hd0]
          simp only [writeBytes, List.length_append, List.length_take,
            List.length_drop]
          omega
      · by_cases hd0 : data.length = 0
        · simp only [if_pos hd0]
          have hdata : data = [] := List.length_eq_zero.mp hd0
          subst hdata
          simp only [List.append_nil, List.length_nil, Nat.add_zero]
          rw [Nat.mod_eq_of_lt hbh]
        · simp only [if_neg hd0]
          rw [Nat.mod_eq_of_lt (show cnt % 128 + data.length < 128 by omega)]
          conv_lhs => rw [← List.take_append_drop (cnt % 128) B]
          rw [writeBytes_exact _ _ _ _ hlive,
            List.take_left' (by rw [List.length_append, hlive])]

/-- The byte-counter update of the `update` body (source lines 476-483):
`count += length`, then roll `count >> 61` into `count_bits_hi` and mask
`count` down to 61 bits when the shifted part is non-zero. -/
theorem sha512_256_updateBody_count_spec (ctx : Sha512_256Ctx) (data : List Nat) :
    (sha512_256_updateBody ctx data).count =
      (if ((ctx.count + data.length) % 2 ^ 64) / 2 ^ 61 = 0
       then (ctx.count + data.length) % 2 ^ 64
       else ((ctx.count + data.length) % 2 ^ 64) % 2 ^ 61) ∧
    (sha512_256_updateBody ctx data).count_bits_hi =
      (if ((ctx.count + data.length) % 2 ^ 64) / 2 ^ 61 = 0
       then ctx.count_bits_hi
       else (ctx.count_bits_hi + ((ctx.count + data.length) % 2 ^ 64) / 2 ^ 61)
            % 2 ^ 64) :=
  ⟨rfl, rfl⟩

/-- After the body of `update`, the low-order counter always fits in 61
bits. -/
theorem sha512_256_updateBody_count_lt (ctx : Sha512_256Ctx) (data : List Nat) :
    (sha512_256_updateBody ctx data).count < 2 ^ 61 := by
  rw [(sha512_256_updateBody_count_spec ctx data).1]
  split_ifs with h
  · omega
  · exact Nat.mod_lt _ (by norm_num)

/-- A zero-length run of the shared `update` body leaves a context with an
in-range counter unchanged (this is the `MHD_FAVOR_SMALL_CODE` path, where
the early-return shortcut is compiled out). -/
theorem sha512_256_updateBody_nil (ctx : Sha512_256Ctx) (h : ctx.count < 2 ^ 61) :
    sha512_256_updateBody ctx [] = ctx := by
  obtain ⟨H, B, cnt, cbh⟩ := ctx
  dsimp only at h
  have hfalse : ¬(cnt % 128 ≠ 0 ∧ 128 - cnt % 128 ≤ 0) := by
    rintro ⟨h1, h2⟩
    omega
  simp only [sha512_256_updateBody, List.length_nil, Nat.add_zero]
  rw [Nat.mod_eq_of_lt (show cnt < 2 ^ 64 by omega), Nat.div_eq_of_lt h]
  simp only [if_neg hfalse]
  rw [sha512_256_processBlocks_lt H ([] : List Nat) (by norm_num)]
  simp

/-- Streaming invariant tying a context to the byte stream `M` absorbed so
far: 128-byte buffer, counter in range, counter congruent to the stream
length mod 128, state equal to the block-loop fold of `M` from the IV, and
the live buffer prefix equal to the loop's leftover tail. -/
def sha512_256_ctxInv (M : List Nat) (ctx : Sha512_256Ctx) : Prop :=
  ctx.buffer.length = 128 ∧
  ctx.count < 2 ^ 61 ∧
  ctx.count % 128 = M.length % 128 ∧
  ctx.H = (sha512_256_processBlocks MHD_SHA512_256_init.H M).1 ∧
  ctx.buffer.take (ctx.count % 128) =
    (sha512_256_processBlocks MHD_SHA512_256_init.H M).2

/-- A fresh context satisfies the invariant for the empty stream. -/
theorem sha512_256_ctxInv_init : sha512_256_ctxInv [] MHD_SHA512_256_init := by
  refine ⟨by decide, by decide, by decide, ?_, ?_⟩
  · rw [sha512_256_processBlocks_lt _ _ (by norm_num)]
  · rw [sha512_256_processBlocks_lt _ _ (by norm_num)]
    decide

/-- One `update` call extends the invariant by the bytes just supplied,
with no bound on the stream or the call length. -/
theorem sha512_256_update_ctxInv {M : List Nat} {ctx : Sha512_256Ctx}
    (data : List Nat) (h : sha512_256_ctxInv M ctx) :
    sha512_256_ctxInv (M ++ data) (MHD_SHA512_256_update ctx data) := by
  obtain ⟨hb, hlt, hc, hH, hlive⟩ := h
  rw [MHD_SHA512_256_update]
  by_cases hd : data.length = 0
  · rw [if_pos hd]
    have hdata : data = [] := List.length_eq_zero.mp hd
    subst hdata
    rw [List.append_nil]
    exact ⟨hb, hlt, hc, hH, hlive⟩
  · rw [if_neg hd]
    obtain ⟨hA, hB2, hC⟩ := sha512_256_updateBody_absorb ctx data hb
    have hcm : (sha512_256_updateBody ctx data).count % 128
        = (ctx.count + data.length) % 128 := by
      rw [(sha512_256_updateBody_count_spec ctx data).1]
      split_ifs <;> omega
    have happ := sha512_256_processBlocks_append M data MHD_SHA512_256_init.H
    refine ⟨hB2, sha512_256_updateBody_count_lt ctx data, ?_, ?_, ?_⟩
    · rw [hcm, List.length_append]
      omega
    · rw [hA, hlive, hH, ← happ]
    · rw [hcm, show (ctx.count + data.length) % 128
          = (ctx.count % 128 + data.length) % 128 by omega, hC, hlive, hH, ← happ]

/-- The invariant holds after any sequence of `update` calls. -/
theorem sha512_256_foldl_ctxInv (chunks : List (List Nat)) :
    ∀ M ctx, sha512_256_ctxInv M ctx →
      sha512_256_ctxInv (M ++ chunks.flatten)
        (chunks.foldl MHD_SHA512_256_update ctx) := by
  induction chunks with
  | nil => intro M ctx h; simpa using h
  | cons a rest ih =>
    intro M ctx h
    rw [List.foldl_cons, List.flatten_cons, ← List.append_assoc]
    exact ih (M ++ a) _ (sha512_256_update_ctxInv a h)

/-- Exact-counter invariant: additionally, the split counter pair holds the
byte total exactly (`count` the low 61 bits, `count_bits_hi` the rest). -/
def sha512_256_ctxExact (M : List Nat) (ctx : Sha512_256Ctx) : Prop :=
  sha512_256_ctxInv M ctx ∧
  ctx.count = M.length % 2 ^ 61 ∧
  ctx.count_bits_hi = M.length / 2 ^ 61 % 2 ^ 64

/-- A fresh context holds the exact count of the empty stream. -/
theorem sha512_256_ctxExact_init : sha512_256_ctxExact [] MHD_SHA512_256_init :=
  ⟨sha512_256_ctxInv_init, by decide, by decide⟩

/-- One `update` call keeps the counters exact, provided the 64-bit addition
`count += length` cannot wrap. -/
theorem sha512_256_update_ctxExact {M : List Nat} {ctx : Sha512_256Ctx}
    (data : List Nat) (h : sha512_256_ctxExact M ctx)
    (hlen : M.length + data.length < 2 ^ 64) :
    sha512_256_ctxExact (M ++ data) (MHD_SHA512_256_update ctx data) := by
  obtain ⟨hinv, hcnt, hcbh⟩ := h
  refine ⟨sha512_256_update_ctxInv data hinv, ?_⟩
  rw [MHD_SHA512_256_update]
  by_cases hd : data.length = 0
  · rw [if_pos hd]
    have hdata : data = [] := List.length_eq_zero.mp hd
    subst hdata
    rw [List.append_nil]
    exact ⟨hcnt, hcbh⟩
  · rw [if_neg hd]
    constructor
    · rw [(sha512_256_updateBody_count_spec ctx data).1, hcnt, List.length_append]
      split_ifs with hif <;> omega
    · rw [(sha512_256_updateBody_count_spec ctx data).2, hcnt, hcbh,
        List.length_append]
      split_ifs with hif <;> omega

/-- The exact-counter invariant holds after any sequence of `update` calls
whose total stays below 2⁶⁴ bytes. -/
theorem sha512_256_foldl_ctxExact (chunks : List (List Nat)) :
    ∀ M ctx, sha512_256_ctxExact M ctx →
      (M ++ chunks.flatten).length < 2 ^ 64 →
      sha512_256_ctxExact (M ++ chunks.flatten)
        (chunks.foldl MHD_SHA512_256_update ctx) := by
  induction chunks with
  | nil => intro M ctx h _; simpa using h
  | cons a rest ih =>
    intro M ctx h hlen
    rw [List.foldl_cons, List.flatten_cons, ← List.append_assoc]
    rw [List.flatten_cons] at hlen
    have h1 : M.length + a.length < 2 ^ 64 := by
      simp only [List.length_append] at hlen
      omega
    apply ih (M ++ a) _ (sha512_256_update_ctxExact a h h1)
    rw [← List.append_assoc] at hlen
    exact hlen

/-- Claim C3: for every context with a 128-byte buffer (every reachable
context), `finish` appends a single `0x80` byte right after the last buffered
input byte; it runs `Transform` on a zero-filled extra block — and starts a
fresh all-zero block — if and only if fewer than 16 bytes remain in the
current 128-byte block after that append; it zero-fills up to the last 16
bytes of the final block, writes there the total message length in bits as a
128-bit big-endian integer (high 64 bits: the overflow counter, low 64 bits:
the byte counter shifted left by 3), and then runs `Transform` exactly once
more on that final block. -/
theorem sha512_256_finish_padding (ctx : Sha512_256Ctx)
    (hbuf : ctx.buffer.length = 128) :
    (MHD_SHA512_256_finish ctx).1 =
      (if 128 - (ctx.count % 128 + 1) < 16 then
        sha512_256_digestOf (sha512_256_transform
          (sha512_256_transform ctx.H
            (ctx.buffer.take (ctx.count % 128) ++ [0x80] ++
             List.replicate (128 - (ctx.count % 128 + 1)) 0))
          (List.replicate 112 0 ++ MHD_PUT_64BIT_BE ctx.count_bits_hi ++
           MHD_PUT_64BIT_BE ((ctx.count * 8) % 2 ^ 64)))
      else
        sha512_256_digestOf (sha512_256_transform ctx.H
          (ctx.buffer.take (ctx.count % 128) ++ [0x80] ++
           List.replicate (112 - (ctx.count % 128 + 1)) 0 ++
           MHD_PUT_64BIT_BE ctx.count_bits_hi ++
           MHD_PUT_64BIT_BE ((ctx.count * 8) % 2 ^ 64)))) :=
  sha512_256_finish_digest_eq ctx hbuf

/-- Witness for C3 at the freshly initialised context. -/
theorem sha512_256_finish_padding_witness :
    MHD_SHA512_256_init.buffer.length = 128 ∧
    (MHD_SHA512_256_finish MHD_SHA512_256_init).1 =
      (if 128 - (MHD_SHA512_256_init.count % 128 + 1) < 16 then
        sha512_256_digestOf (sha512_256_transform
          (sha512_256_transform MHD_SHA512_256_init.H
            (MHD_SHA512_256_init.buffer.take (MHD_SHA512_256_init.count % 128) ++
             [0x80] ++
             List.replicate (128 - (MHD_SHA512_256_init.count % 128 + 1)) 0))
          (List.replicate 112 0 ++
           MHD_PUT_64BIT_BE MHD_SHA512_256_init.count_bits_hi ++
           MHD_PUT_64BIT_BE ((MHD_SHA512_256_init.count * 8) % 2 ^ 64)))
      else
        sha512_256_digestOf (sha512_256_transform MHD_SHA512_256_init.H
          (MHD_SHA512_256_init.buffer.take (MHD_SHA512_256_init.count % 128) ++
           [0x80] ++
           List.replicate (112 - (MHD_SHA512_256_init.count % 128 + 1)) 0 ++
           MHD_PUT_64BIT_BE MHD_SHA512_256_init.count_bits_hi ++
           MHD_PUT_64BIT_BE ((MHD_SHA512_256_init.count * 8) % 2 ^ 64)))) :=
  ⟨by decide, sha512_256_finish_padding MHD_SHA512_256_init (by decide)⟩

/-- Claim C5: for every byte sequence and every partition of it into
consecutive chunks (with the whole sequence shorter than 2⁶⁴ bytes, as the C
`size_t` argument of the single-call side requires), `init`, one `update`
per chunk in order, then `finish` yields the same digest as `init`, a single
`update` with the whole sequence, then `finish`. -/
theorem sha512_256_chunking_invariance (chunks : List (List Nat))
    (h : chunks.flatten.length < 2 ^ 64) :
    (MHD_SHA512_256_finish
        (chunks.foldl MHD_SHA512_256_update MHD_SHA512_256_init)).1 =
      (MHD_SHA512_256_finish
        (MHD_SHA512_256_update MHD_SHA512_256_init chunks.flatten)).1 := by
  have e1 := sha512_256_foldl_ctxExact chunks [] MHD_SHA512_256_init
    sha512_256_ctxExact_init (by simpa using h)
  have e2 := @sha512_256_update_ctxExact [] MHD_SHA512_256_init
    chunks.flatten sha512_256_ctxExact_init (by simpa using h)
  rw [List.nil_append] at e1 e2
  obtain ⟨⟨hb1, _, _, hH1, hl1⟩, hc1, hcb1⟩ := e1
  obtain ⟨⟨hb2, _, _, hH2, hl2⟩, hc2, hcb2⟩ := e2
  rw [sha512_256_finish_digest_eq _ hb1, sha512_256_finish_digest_eq _ hb2,
    hl1, hl2, hH1, hH2, hc1, hc2, hcb1, hcb2]

/-- Witness for C5: hashing `[1] ++ [2,3]` in two chunks equals hashing
`[1,2,3]` in one call. -/
theorem sha512_256_chunking_invariance_witness :
    ([[1], [2, 3]] : List (List Nat)).flatten.length < 2 ^ 64 ∧
    (MHD_SHA512_256_finish
        (([[1], [2, 3]] : List (List Nat)).foldl MHD_SHA512_256_update
          MHD_SHA512_256_init)).1 =
      (MHD_SHA512_256_finish
        (MHD_SHA512_256_update MHD_SHA512_256_init
          ([[1], [2, 3]] : List (List Nat)).flatten)).1 :=
  ⟨by decide, sha512_256_chunking_invariance [[1], [2, 3]] (by decide)⟩

/-- Claim C6: after `init` and after every sequence of `update` calls, the
buffered not-yet-transformed bytes are exactly the stream's tail after its
full 128-byte blocks; their number equals the low-order byte counter mod 128
and is strictly below 128, so the buffer never retains a full block. -/
theorem sha512_256_buffer_invariant (chunks : List (List Nat)) :
    (chunks.foldl MHD_SHA512_256_update MHD_SHA512_256_init).count % 128
        = chunks.flatten.length % 128 ∧
    ((chunks.foldl MHD_SHA512_256_update MHD_SHA512_256_init).buffer.take
        ((chunks.foldl MHD_SHA512_256_update MHD_SHA512_256_init).count % 128)).length
        = (chunks.foldl MHD_SHA512_256_update MHD_SHA512_256_init).count % 128 ∧
    (chunks.foldl MHD_SHA512_256_update MHD_SHA512_256_init).count % 128 < 128 ∧
    (chunks.foldl MHD_SHA512_256_update MHD_SHA512_256_init).buffer.take
        ((chunks.foldl MHD_SHA512_256_update MHD_SHA512_256_init).count % 128)
      = chunks.flatten.drop (128 * (chunks.flatten.length / 128)) := by
  have e := sha512_256_foldl_ctxInv chunks [] MHD_SHA512_256_init
    sha512_256_ctxInv_init
  rw [List.nil_append] at e
  obtain ⟨hb, hlt, hc, hH, hlive⟩ := e
  refine ⟨hc, ?_, Nat.mod_lt _ (by norm_num), ?_⟩
  · rw [List.length_take, hb]
    have := Nat.mod_lt (chunks.foldl MHD_SHA512_256_update
      MHD_SHA512_256_init).count (show 0 < 128 by norm_num)
    omega
  · rw [hlive]
    exact sha512_256_processBlocks_snd chunks.flatten MHD_SHA512_256_init.H

/-- Claim C7, counterexample: after absorbing 1 byte and then 2⁶⁴ − 1 bytes
(total 2⁶⁴ bytes), the 64-bit addition `count += length` wraps and both
counters read zero — the same pair as a fresh context — so the counter pair
does not losslessly represent the total for arbitrary call sequences. -/
theorem sha512_256_c7_counterexample :
    (MHD_SHA512_256_update (MHD_SHA512_256_update MHD_SHA512_256_init [0])
        (List.replicate (2 ^ 64 - 1) 0)).count = 0 ∧
    (MHD_SHA512_256_update (MHD_SHA512_256_update MHD_SHA512_256_init [0])
        (List.replicate (2 ^ 64 - 1) 0)).count_bits_hi = 0 ∧
    (1 : Nat) + (2 ^ 64 - 1) ≠ 0 + 2 ^ 61 * 0 := by
  have hc1 : (MHD_SHA512_256_update MHD_SHA512_256_init [0]).count = 1 := by
    decide
  have hcb1 : (MHD_SHA512_256_update MHD_SHA512_256_init [0]).count_bits_hi
      = 0 := by
    decide
  have hlenr : (List.replicate (2 ^ 64 - 1) (0 : Nat)).length = 2 ^ 64 - 1 :=
    List.length_replicate ..
  have hne : ¬(List.replicate (2 ^ 64 - 1) (0 : Nat)).length = 0 := by
    rw [hlenr]
    norm_num
  have hstep : ∀ ctx : Sha512_256Ctx, ctx.count = 1 → ctx.count_bits_hi = 0 →
      (MHD_SHA512_256_update ctx (List.replicate (2 ^ 64 - 1) 0)).count = 0 ∧
      (MHD_SHA512_256_update ctx
        (List.replicate (2 ^ 64 - 1) 0)).count_bits_hi = 0 := by
    intro ctx h1 h2
    rw [MHD_SHA512_256_update, if_neg hne]
    constructor
    · rw [(sha512_256_updateBody_count_spec _ _).1, h1, hlenr]
      norm_num
    · rw [(sha512_256_updateBody_count_spec _ _).2, h1, h2, hlenr]
      norm_num
  exact ⟨(hstep _ hc1 hcb1).1, (hstep _ hc1 hcb1).2, by norm_num⟩

/-- Split-counter contents after absorbing the stream `M`: the low-order
counter holds `M.length mod 2⁶¹` and the overflow counter holds
`M.length / 2⁶¹ mod 2⁶⁴` (the pair is the byte total reduced mod 2¹²⁵). -/
def sha512_256_ctxCnt (M : List Nat) (ctx : Sha512_256Ctx) : Prop :=
  ctx.count = M.length % 2 ^ 61 ∧
  ctx.count_bits_hi = M.length / 2 ^ 61 % 2 ^ 64

/-- A fresh context holds the counters of the empty stream. -/
theorem sha512_256_ctxCnt_init : sha512_256_ctxCnt [] MHD_SHA512_256_init :=
  ⟨by decide, by decide⟩

/-- One `update` call keeps the split counters in step with the stream,
assuming only the per-call condition that `count += length` cannot wrap:
the context's low-order counter plus this call's length is below 2⁶⁴. -/
theorem sha512_256_update_ctxCnt {M : List Nat} {ctx : Sha512_256Ctx}
    (data : List Nat) (h : sha512_256_ctxCnt M ctx)
    (hcall : ctx.count + data.length < 2 ^ 64) :
    sha512_256_ctxCnt (M ++ data) (MHD_SHA512_256_update ctx data) := by
  obtain ⟨hcnt, hcbh⟩ := h
  rw [MHD_SHA512_256_update]
  by_cases hd : data.length = 0
  · rw [if_pos hd]
    have hdata : data = [] := List.length_eq_zero.mp hd
    subst hdata
    rw [List.append_nil]
    exact ⟨hcnt, hcbh⟩
  · rw [if_neg hd]
    rw [hcnt] at hcall
    constructor
    · rw [(sha512_256_updateBody_count_spec ctx data).1, hcnt,
        List.length_append]
      split_ifs with hif <;> omega
    · rw [(sha512_256_updateBody_count_spec ctx data).2, hcnt, hcbh,
        List.length_append]
      split_ifs with hif <;> omega

/-- The split counters track the stream across any sequence of `update`
calls, each of which satisfies the per-call no-wrap condition. -/
theorem sha512_256_foldl_ctxCnt (chunks : List (List Nat)) :
    ∀ M ctx, sha512_256_ctxCnt M ctx →
      (∀ i, (hi : i < chunks.length) →
        ((chunks.take i).foldl MHD_SHA512_256_update ctx).count
          + chunks[i].length < 2 ^ 64) →
      sha512_256_ctxCnt (M ++ chunks.flatten)
        (chunks.foldl MHD_SHA512_256_update ctx) := by
  induction chunks with
  | nil => intro M ctx h _; simpa using h
  | cons a rest ih =>
    intro M ctx h hcall
    rw [List.foldl_cons, List.flatten_cons, ← List.append_assoc]
    have h0 : ctx.count + a.length < 2 ^ 64 := by
      have := hcall 0 (by simp)
      simpa using this
    apply ih (M ++ a) _ (sha512_256_update_ctxCnt a h h0)
    intro i hi
    have := hcall (i + 1) (by simpa using Nat.succ_lt_succ hi)
    simpa using this

/-- Claim C7, amended: provided at each call the low-order byte counter plus
the call's length stays below 2⁶⁴ (so the 64-bit addition `count += length`
cannot wrap), each `update` adds its length to the low-order counter and
rolls the excess beyond the bounded low-order field into the overflow
counter, keeping `count = total mod 2⁶¹` and
`count_bits_hi = (total / 2⁶¹) mod 2⁶⁴`.  The pair therefore holds the byte
total reduced mod 2¹²⁵, which equals the exact total while the stream is
below 2¹²⁵ bytes (beyond that even the overflow counter wraps), and the
finalization quantities — overflow counter as the high 64 bits, low-order
counter shifted left by 3 as the low 64 bits — form the total bit count mod
2¹²⁸, i.e. the exact 128-bit big-endian bit-length for all streams below
2¹²⁵ bytes. -/
theorem sha512_256_counters_lossless (chunks : List (List Nat))
    (h : ∀ i, (hi : i < chunks.length) →
      ((chunks.take i).foldl MHD_SHA512_256_update MHD_SHA512_256_init).count
        + chunks[i].length < 2 ^ 64) :
    (chunks.foldl MHD_SHA512_256_update MHD_SHA512_256_init).count
      = chunks.flatten.length % 2 ^ 61 ∧
    (chunks.foldl MHD_SHA512_256_update MHD_SHA512_256_init).count_bits_hi
      = chunks.flatten.length / 2 ^ 61 % 2 ^ 64 ∧
    (chunks.foldl MHD_SHA512_256_update MHD_SHA512_256_init).count
        + 2 ^ 61 * (chunks.foldl MHD_SHA512_256_update
            MHD_SHA512_256_init).count_bits_hi
      = chunks.flatten.length % 2 ^ 125 ∧
    (chunks.flatten.length < 2 ^ 125 →
      (chunks.foldl MHD_SHA512_256_update MHD_SHA512_256_init).count
          + 2 ^ 61 * (chunks.foldl MHD_SHA512_256_update
              MHD_SHA512_256_init).count_bits_hi
        = chunks.flatten.length) ∧
    2 ^ 64 * (chunks.foldl MHD_SHA512_256_update
          MHD_SHA512_256_init).count_bits_hi
        + ((chunks.foldl MHD_SHA512_256_update MHD_SHA512_256_init).count * 8)
          % 2 ^ 64
      = 8 * chunks.flatten.length % 2 ^ 128 ∧
    (chunks.flatten.length < 2 ^ 125 →
      2 ^ 64 * (chunks.foldl MHD_SHA512_256_update
            MHD_SHA512_256_init).count_bits_hi
          + ((chunks.foldl MHD_SHA512_256_update
              MHD_SHA512_256_init).count * 8) % 2 ^ 64
        = 8 * chunks.flatten.length) := by
  have e := sha512_256_foldl_ctxCnt chunks [] MHD_SHA512_256_init
    sha512_256_ctxCnt_init h
  rw [List.nil_append] at e
  obtain ⟨hc, hcb⟩ := e
  rw [hc, hcb]
  exact ⟨rfl, rfl, by omega, fun hlt => by omega, by omega, fun hlt => by omega⟩

/-- Witness for C7 (amended) at the single chunk `[5]`. -/
theorem sha512_256_counters_lossless_witness :
    (∀ i, (hi : i < ([[5]] : List (List Nat)).length) →
      ((([[5]] : List (List Nat)).take i).foldl MHD_SHA512_256_update
          MHD_SHA512_256_init).count
        + ([[5]] : List (List Nat))[i].length < 2 ^ 64) ∧
    (([[5]] : List (List Nat)).foldl MHD_SHA512_256_update
        MHD_SHA512_256_init).count
      = ([[5]] : List (List Nat)).flatten.length % 2 ^ 61 :=
  ⟨by decide, (sha512_256_counters_lossless [[5]] (by decide)).1⟩

/-- Claim C10: a zero-length `update` leaves any reachable context exactly
unchanged, on the default build path (which takes the early-return shortcut)
and on the `MHD_FAVOR_SMALL_CODE` path (which runs the whole body) alike. -/
theorem sha512_256_update_zero_len_id (chunks : List (List Nat)) :
    MHD_SHA512_256_update
        (chunks.foldl MHD_SHA512_256_update MHD_SHA512_256_init) []
      = chunks.foldl MHD_SHA512_256_update MHD_SHA512_256_init ∧
    MHD_SHA512_256_update_sc
        (chunks.foldl MHD_SHA512_256_update MHD_SHA512_256_init) []
      = chunks.foldl MHD_SHA512_256_update MHD_SHA512_256_init := by
  have e := sha512_256_foldl_ctxInv chunks [] MHD_SHA512_256_init
    sha512_256_ctxInv_init
  obtain ⟨_, hlt, _, _, _⟩ := e
  constructor
  · rw [MHD_SHA512_256_update,
      if_pos (show ([] : List Nat).length = 0 from rfl)]
  · exact sha512_256_updateBody_nil _ hlt
